import Mathlib

/-! # Verification of the TicTacToe AI agent (tic_tac_toe_agent.py)

Shallow embedding of the decision core of `src/tic_tac_toe_agent.py`.

Modelling conventions, fixed once for the whole development:

* A board position key `'1'..'9'` is modelled as `Pos := Fin 9`, where the
  key `str(i+1)` corresponds to `(i : Fin 9)`.
* A board value is a `Mark`: the source uses the strings `' '` (empty),
  the agent's symbol and the opponent's symbol; the well-formed value set
  is `{' ', 'X', 'O'}` (spec section 3 and 6).  `not v.strip()` on such a
  value is exactly `v = ' '`, i.e. `Mark.empty`.
* A `dict` holding the nine keys is modelled as a total function
  `Board := Pos → Mark`; `dict(board)` (a value copy) is the identity on
  values, and `updated_board[play] = mark` is `Function.update`.
  Iteration order of `board.items()` is the fixed key order `1..9`
  (Python dicts iterate in insertion order; the claims proved here do not
  depend on which fixed enumeration order is used).
* Python numbers (`int`, `float`) are modelled exactly in `ℚ`.
* The recursion of `__get_possibility_tree` is embedded with an explicit
  `fuel` argument; every call strictly reduces the number of empty cells,
  which is at most `9`, so fuel `9` makes the embedding total without ever
  cutting a branch the source would have built (the `fuel = 0` case is
  unreachable from the top-level call).
* A raised Python exception is modelled as `Except.error`; a normal return
  as `Except.ok`.
* `random.choice(xs)` is modelled by an oracle argument `c : ℕ` selecting
  `xs[c % len(xs)]`: every element of `xs` is a possible outcome, and any
  outcome is some element of `xs` (`random.choice` of an empty sequence
  raises `IndexError`).
-/

namespace TicTacToeSpec

/-- A board cell value: empty (`' '`), `'X'` or `'O'`. -/
inductive Mark where
  | empty
  | X
  | O
deriving DecidableEq, Repr

/-- Board position keys `'1'..'9'`: key `str(i+1)` is `(i : Fin 9)`. -/
abbrev Pos := Fin 9

/-- A board: the 9 fixed keys, each holding one `Mark`. -/
abbrev Board := Pos → Mark

/-- `VICTORY_CONDITIONS` (source lines 24-29): the 8 winning triples of
keys, in the source's order, with key `str(i+1)` written as `i`. -/
def VICTORY_CONDITIONS : List (Pos × Pos × Pos) :=
  [(0, 1, 2), (0, 3, 6),
   (0, 4, 8), (1, 4, 7),
   (2, 4, 6), (2, 5, 8),
   (3, 4, 5), (6, 7, 8)]

/-- The loop of `__check_victory` (source lines 197-198): scan the victory
conditions in order and return `(board[a], 10)` at the first triple with
`board[a] == board[b] == board[c] != ' '`. -/
def checkVictoryAux (board : Board) : List (Pos × Pos × Pos) → Option Mark × ℚ
  | [] => (none, 0)
  | (a, b, c) :: rest =>
      if board a = board b ∧ board b = board c ∧ board c ≠ Mark.empty then
        (some (board a), 10)
      else checkVictoryAux board rest

/-- `__check_victory` (source lines 189-201): the winning mark (or `none`)
together with the base score `10` (or `0`).  The source only reads the
board, so the embedding is a pure function of the board value. -/
def checkVictory (board : Board) : Option Mark × ℚ :=
  checkVictoryAux board VICTORY_CONDITIONS

/-- `__get_opponent_symbol` (source lines 211-218). -/
def getOpponentSymbol (agent_symbol : Mark) : Mark :=
  if agent_symbol = Mark.X then Mark.O else Mark.X

/-- `[k for k, v in board.items() if not v.strip()]` (source lines 66, 130,
226): the empty positions, in key order. -/
def availablePlays (board : Board) : List Pos :=
  (List.finRange 9).filter (fun p => board p = Mark.empty)

/-- `PlayNode` (source lines 5-13): per-node score, whose move produced the
node, and the branch map from position keys to child nodes. -/
inductive PlayNode where
  | mk (score : ℚ) (agent_turn : Bool) (branch : List (Pos × PlayNode))

/-- The `score` attribute of a `PlayNode`. -/
def PlayNode.score : PlayNode → ℚ
  | .mk s _ _ => s

/-- The `agent_turn` attribute of a `PlayNode`. -/
def PlayNode.agentTurn : PlayNode → Bool
  | .mk _ t _ => t

/-- The `branch` attribute of a `PlayNode`. -/
def PlayNode.branch : PlayNode → List (Pos × PlayNode)
  | .mk _ _ br => br

/-- `__get_possibility_tree` (source lines 115-168), with the agent's
symbol and the computed `self.limit_branch_depth` passed explicitly, and
an explicit `fuel` argument making the recursion structural (see the
module comment; fuel `9` is always enough).  For each available play the
mover's mark is placed on a copy of the board, the victory checker is run
on the result, the score of a winning node is `10` divided by
`10^(branch_level-1)` (negated divisor for a non-agent winner, source
line 151), and a non-winning node's branch is the recursive expansion with
the turn flipped. -/
def getPossibilityTree (agent_symbol : Mark) (limit : ℕ) :
    ℕ → Board → Bool → ℕ → List (Pos × PlayNode)
  | 0, _, _, _ => []
  | fuel + 1, board, agent_turn, branch_level =>
      let available_plays := availablePlays board
      if available_plays.length = 0 then []
      else
        let branch_level := branch_level + 1
        if branch_level > limit then []
        else
          available_plays.map (fun play =>
            let updated_board :=
              Function.update board play
                (if agent_turn then agent_symbol else getOpponentSymbol agent_symbol)
            let vs := checkVictory updated_board
            let score : ℚ :=
              match vs.1 with
              | some victory =>
                  vs.2 /
                    (if victory = agent_symbol then (10 : ℚ) ^ (branch_level - 1)
                     else -((10 : ℚ) ^ (branch_level - 1)))
              | none => vs.2
            let branch : List (Pos × PlayNode) :=
              match vs.1 with
              | some _ => []
              | none =>
                  getPossibilityTree agent_symbol limit fuel updated_board
                    (!agent_turn) branch_level
            (play, PlayNode.mk score agent_turn branch))

/-- The branch of a node is structurally smaller than the node. -/
theorem PlayNode.sizeOf_branch_lt (v : PlayNode) : sizeOf v.branch < sizeOf v := by
  cases v
  simp [PlayNode.branch]

/-- The node of a key-node pair is structurally smaller than any list the
pair heads. -/
theorem sizeOf_snd_lt_cons (kv : Pos × PlayNode) (rest : List (Pos × PlayNode)) :
    sizeOf kv.2 < sizeOf (kv :: rest) := by
  cases kv
  simp
  omega

/-- `__evaluate_moves` (source lines 170-187): thread the accumulator
through each node's score, then its branch, then its later siblings. -/
def evaluateMoves : List (Pos × PlayNode) → ℚ → ℚ
  | [], branch_score => branch_score
  | kv :: rest, branch_score =>
      let branch_score := branch_score + kv.2.score
      let branch_score :=
        match kv.2.branch with
        | [] => branch_score
        | _ :: _ => evaluateMoves kv.2.branch branch_score
      evaluateMoves rest branch_score
termination_by moves _ => sizeOf moves
decreasing_by
  · exact lt_trans (PlayNode.sizeOf_branch_lt kv.2) (sizeOf_snd_lt_cons kv rest)
  · simp

/-- `self.maximum_branch_depth` as computed by `__update_branch_depths`
(source line 226): the number of empty cells. -/
def maximumBranchDepth (board : Board) : ℕ :=
  (availablePlays board).length

/-- `self.limit_branch_depth` as computed by `__update_branch_depths`
(source lines 227-231), with `math.ceil` on the exact rational value. -/
def limitBranchDepth (accuracy : ℚ) (board : Board) : ℕ :=
  let m := maximumBranchDepth board
  if accuracy ≤ 0 then 2
  else if accuracy > 1 then m
  else
    let l := (⌈(m : ℚ) * accuracy⌉).toNat
    if l < 2 then 2 else l

/-- A raised Python exception, as surfaced by the modelled entry points. -/
inductive PyErr where
  | indexError
  | keyError
deriving DecidableEq, Repr

/-- `round(x, 7)` (source line 95): round to 7 decimal places with Python's
round-half-to-even tie rule, on the exact rational value. -/
def round7 (q : ℚ) : ℚ :=
  let x := q * 10 ^ 7
  let f : ℤ := ⌊x⌋
  let r := x - (f : ℚ)
  let n : ℤ :=
    if r < 1 / 2 then f
    else if 1 / 2 < r then f + 1
    else if 2 ∣ f then f else f + 1
  (n : ℚ) / 10 ^ 7

/-- The state stored by `__init__` (source lines 31-44) for a well-formed
board: the board copy, the agent's symbol and the accuracy.  The stored
`opponent_symbol` is always `getOpponentSymbol agent_symbol` and the two
branch-depth fields are overwritten by `__update_branch_depths` before any
use, so they are kept out of the state and computed where used. -/
structure TicTacToeAgent where
  board : Board
  agent_symbol : Mark
  accuracy : ℚ

/-- `[v for k, v in self.board.items()].count(' ')` (source line 209). -/
def countBlankVals (board : Board) : ℕ :=
  ((List.finRange 9).map board).count Mark.empty

/-- `__is_initial_move` (source lines 203-209): fewer than `move` marks are
on the board. -/
def isInitialMove (a : TicTacToeAgent) (move : ℕ) : Bool :=
  9 - countBlankVals a.board < move

/-- Committing a chosen position to the stored board:
`self.board[move] = self.agent_symbol` (source lines 72, 112). -/
def movedAgent (a : TicTacToeAgent) (move : Pos) : TicTacToeAgent :=
  { a with board := Function.update a.board move a.agent_symbol }

/-- `__get_random_move` (source lines 60-73): `random.choice` over the
empty positions (oracle index `c`; `IndexError` on an empty list), then
commit the agent's mark at the chosen position. -/
def getRandomMove (a : TicTacToeAgent) (c : ℕ) : Except PyErr (Pos × TicTacToeAgent) :=
  match availablePlays a.board with
  | [] => .error .indexError
  | _ :: _ =>
      let movement := (availablePlays a.board).getD (c % (availablePlays a.board).length) 0
      .ok (movement, movedAgent a movement)

/-- The `possibility_tree` built at source line 85: the recursion is seeded
with the stored board, `agent_turn = True`, `branch_level = 0`, and the
limit computed by `__update_branch_depths` at source line 82. -/
def possibilityTreeOf (a : TicTacToeAgent) : List (Pos × PlayNode) :=
  getPossibilityTree a.agent_symbol (limitBranchDepth a.accuracy a.board) 9 a.board true 0

/-- `best_moves` before sorting (source lines 90-96): each first-level move
paired with its branch score `round(self.__evaluate_moves({move: branch}), 7)`. -/
def branchScores (a : TicTacToeAgent) : List (Pos × ℚ) :=
  (possibilityTreeOf a).map (fun mb => (mb.1, round7 (evaluateMoves [mb] 0)))

/-- `best_moves` after `sorted(..., key=branch_score, reverse=True)`
(source line 99). -/
def sortedMoves (a : TicTacToeAgent) : List (Pos × ℚ) :=
  (branchScores a).mergeSort (fun x y => decide (y.2 ≤ x.2))

/-- `[x.get('move') for x in best_moves if x.get('branch_score') == best_move_score]`
(source lines 106-107): the moves tied for the best score, where
`best_move_score` is the score of the head of the sorted list (empty when
the sorted list is empty; the source raises `IndexError` before reading it
in that case). -/
def tiedMoves (a : TicTacToeAgent) : List Pos :=
  match sortedMoves a with
  | [] => []
  | (_, best) :: _ =>
      ((sortedMoves a).filter (fun x => decide (x.2 = best))).map Prod.fst

/-- `__get_agent_move` (source lines 75-113): build the tree, score and
sort the first-level moves, pick `random.choice` (oracle `c`) among the
moves tied for the best score, commit the chosen position and return it.
`best_moves[0]` on an empty list (a full board) raises `IndexError`. -/
def getAgentMove (a : TicTacToeAgent) (c : ℕ) : Except PyErr (Pos × TicTacToeAgent) :=
  match sortedMoves a with
  | [] => .error .indexError
  | _ :: _ =>
      let chosen_move := (tiedMoves a).getD (c % (tiedMoves a).length) 0
      .ok (chosen_move, movedAgent a chosen_move)

/-- `get_move` (source lines 46-58): the random opening branch when
`(RANDOM_INITIAL_MOVES and __is_initial_move(2)) or __is_initial_move(1)`,
else the calculated move.  The class flag `RANDOM_INITIAL_MOVES` is passed
explicitly. -/
def getMove (random_initial_moves : Bool) (a : TicTacToeAgent) (c : ℕ) :
    Except PyErr (Pos × TicTacToeAgent) :=
  if (random_initial_moves && isInitialMove a 2) || isInitialMove a 1 then
    getRandomMove a c
  else
    getAgentMove a c

/-! ## Victory checker: supporting lemmas and claim C2 -/

/-- `winsAt board t`: the triple `t` is completed by one non-empty mark,
i.e. the source's `board[a] == board[b] == board[c] != ' '`. -/
def winsAt (board : Board) (t : Pos × Pos × Pos) : Prop :=
  board t.1 = board t.2.1 ∧ board t.2.1 = board t.2.2 ∧ board t.2.2 ≠ Mark.empty

instance (board : Board) (t : Pos × Pos × Pos) : Decidable (winsAt board t) := by
  unfold winsAt
  infer_instance

theorem checkVictoryAux_of_no_win (board : Board) (l : List (Pos × Pos × Pos))
    (h : ∀ t ∈ l, ¬ winsAt board t) : checkVictoryAux board l = (none, 0) := by
  induction l with
  | nil => rfl
  | cons t rest ih =>
      obtain ⟨a, b, c⟩ := t
      have hw := h _ (List.mem_cons_self _ _)
      rw [checkVictoryAux, if_neg]
      · exact ih fun u hu => h u (List.mem_cons_of_mem _ hu)
      · exact fun hc => hw hc

theorem checkVictoryAux_of_win (board : Board) (l : List (Pos × Pos × Pos))
    (h : ∃ t ∈ l, winsAt board t) :
    ∃ m, m ≠ Mark.empty ∧
      (∃ t ∈ l, board t.1 = m ∧ board t.2.1 = m ∧ board t.2.2 = m) ∧
      checkVictoryAux board l = (some m, 10) := by
  induction l with
  | nil => simp at h
  | cons t rest ih =>
      obtain ⟨a, b, c⟩ := t
      by_cases hw : winsAt board (a, b, c)
      · obtain ⟨h1, h2, h3⟩ := hw
        refine ⟨board a, ?_, ⟨(a, b, c), List.mem_cons_self _ _, rfl, h1.symm, ?_⟩, ?_⟩
        · rw [h1, h2]
          exact h3
        · rw [h1, h2]
        · rw [checkVictoryAux, if_pos ⟨h1, h2, h3⟩]
      · have h' : ∃ t ∈ rest, winsAt board t := by
          obtain ⟨u, hu, hwu⟩ := h
          rcases List.mem_cons.mp hu with rfl | hmem
          · exact absurd hwu hw
          · exact ⟨u, hmem, hwu⟩
        obtain ⟨m, hm, ⟨u, hu, hb⟩, heq⟩ := ih h'
        refine ⟨m, hm, ⟨u, List.mem_cons_of_mem _ hu, hb⟩, ?_⟩
        have hni : ¬(board a = board b ∧ board b = board c ∧ board c ≠ Mark.empty) :=
          fun hc => hw hc
        rw [checkVictoryAux, if_neg hni, heq]

/-- C2.  The Victory Checker returns `(m, 10)` for a non-empty mark `m`
occupying one of the 8 winning triples whenever a completed triple exists,
and `(none, 0)` when none does.  (The source lines 197-201 only read the
board, so `checkVictory` is a pure function of the board value: the call
has no effect on the board.) -/
theorem checkVictory_spec (board : Board) :
    ((∃ t ∈ VICTORY_CONDITIONS, winsAt board t) →
      ∃ m, m ≠ Mark.empty ∧
        (∃ t ∈ VICTORY_CONDITIONS, board t.1 = m ∧ board t.2.1 = m ∧ board t.2.2 = m) ∧
        checkVictory board = (some m, 10)) ∧
    ((∀ t ∈ VICTORY_CONDITIONS, ¬ winsAt board t) → checkVictory board = (none, 0)) :=
  ⟨fun h => checkVictoryAux_of_win board VICTORY_CONDITIONS h,
   fun h => checkVictoryAux_of_no_win board VICTORY_CONDITIONS h⟩

set_option maxRecDepth 8000

/-- A board whose row `7 8 9` is three `X`s, and a board with no completed
line, with the two halves of `checkVictory_spec` applied to them. -/
def rowBoard : Board := fun p => if (6 : Fin 9) ≤ p then Mark.X else Mark.empty

/-- A drawn board: `X O X / O X O / O X O` over keys `1..9`. -/
def drawBoard : Board := fun p =>
  match (p : Fin 9) with
  | 0 => Mark.X | 1 => Mark.O | 2 => Mark.X
  | 3 => Mark.O | 4 => Mark.X | 5 => Mark.O
  | 6 => Mark.O | 7 => Mark.X | 8 => Mark.O

theorem checkVictory_spec_witness :
    (∃ m, m ≠ Mark.empty ∧
      (∃ t ∈ VICTORY_CONDITIONS, rowBoard t.1 = m ∧ rowBoard t.2.1 = m ∧ rowBoard t.2.2 = m) ∧
      checkVictory rowBoard = (some m, 10)) ∧
    checkVictory drawBoard = (none, 0) :=
  ⟨(checkVictory_spec rowBoard).1 (by decide),
   (checkVictory_spec drawBoard).2 (by decide)⟩

/-! ## Depth-limit calculator: claim C3 -/

/-- C3 (amended).  The computed depth limit is `2` when `accuracy ≤ 0`,
the free-cell count when `accuracy > 1`, and otherwise
`ceil(free * accuracy)` floored at a minimum of `2`; consequently, on
every board with at least 2 empty cells, `accuracy = 1` yields a limit
equal to the free-cell count and `accuracy = 1.5` yields the same limit as
`accuracy = 1`.  (The restriction to boards with at least 2 empty cells is
forced: with 1 empty cell `accuracy = 1` yields `2` while `accuracy = 1.5`
yields `1`, see `limitBranchDepth_claim_false`.) -/
theorem limitBranchDepth_spec (accuracy : ℚ) (board : Board) :
    (accuracy ≤ 0 → limitBranchDepth accuracy board = 2) ∧
    (1 < accuracy → limitBranchDepth accuracy board = maximumBranchDepth board) ∧
    (0 < accuracy → accuracy ≤ 1 →
      limitBranchDepth accuracy board =
        max 2 (⌈(maximumBranchDepth board : ℚ) * accuracy⌉.toNat)) ∧
    (2 ≤ maximumBranchDepth board →
      limitBranchDepth 1 board = maximumBranchDepth board ∧
      limitBranchDepth (3 / 2) board = limitBranchDepth 1 board) := by
  have hone : limitBranchDepth 1 board = max 2 (maximumBranchDepth board) := by
    have h0 : ¬ ((1 : ℚ) ≤ 0) := by norm_num
    have h1 : ¬ ((1 : ℚ) > 1) := by norm_num
    simp only [limitBranchDepth, if_neg h0, if_neg h1, mul_one, Int.ceil_natCast,
      Int.toNat_natCast]
    split
    · omega
    · omega
  refine ⟨?_, ?_, ?_, ?_⟩
  · intro h
    simp only [limitBranchDepth, if_pos h]
  · intro h
    have h0 : ¬ (accuracy ≤ 0) := by linarith
    simp only [limitBranchDepth, if_neg h0, if_pos h]
  · intro hpos hle
    have h0 : ¬ (accuracy ≤ 0) := by linarith
    have h1 : ¬ (accuracy > 1) := by linarith
    simp only [limitBranchDepth, if_neg h0, if_neg h1]
    split
    · omega
    · omega
  · intro h2
    have h32 : limitBranchDepth (3 / 2) board = maximumBranchDepth board := by
      have h0 : ¬ ((3 / 2 : ℚ) ≤ 0) := by norm_num
      have h1 : (3 / 2 : ℚ) > 1 := by norm_num
      simp only [limitBranchDepth, if_neg h0, if_pos h1]
    constructor
    · rw [hone]
      omega
    · rw [h32, hone]
      omega

/-- A board with exactly one empty cell (key `9`), all other cells `X`. -/
def oneFreeBoard : Board := fun p => if p = (8 : Fin 9) then Mark.empty else Mark.X

/-- C3 counterexample.  On a board with one empty cell, `accuracy = 1`
computes limit `2`, not the free-cell count `1`, and `accuracy = 1.5`
computes limit `1 ≠ 2`: the claim's "for every board" clauses are false. -/
theorem limitBranchDepth_claim_false :
    ¬ (limitBranchDepth 1 oneFreeBoard = maximumBranchDepth oneFreeBoard ∧
       limitBranchDepth (3 / 2) oneFreeBoard = limitBranchDepth 1 oneFreeBoard) := by
  have hm : maximumBranchDepth oneFreeBoard = 1 := by decide
  have h1 : limitBranchDepth 1 oneFreeBoard = 2 := by
    have h0 : ¬ ((1 : ℚ) ≤ 0) := by norm_num
    have hg : ¬ ((1 : ℚ) > 1) := by norm_num
    simp only [limitBranchDepth, hm, if_neg h0, if_neg hg, mul_one, Int.ceil_natCast,
      Int.toNat_natCast]
    norm_num
  intro h
  rw [h1, hm] at h
  exact absurd h.1 (by norm_num)

/-! ## Possibility tree: node scores (claim C1) -/

theorem checkVictoryAux_shape (board : Board) (l : List (Pos × Pos × Pos)) :
    checkVictoryAux board l = (none, 0) ∨ ∃ m, checkVictoryAux board l = (some m, 10) := by
  induction l with
  | nil => exact Or.inl rfl
  | cons t rest ih =>
      obtain ⟨a, b, c⟩ := t
      rw [checkVictoryAux]
      split
      · exact Or.inr ⟨board a, rfl⟩
      · exact ih

theorem checkVictory_snd_of_some {board : Board} {m : Mark}
    (h : (checkVictory board).1 = some m) : (checkVictory board).2 = 10 := by
  rcases checkVictoryAux_shape board VICTORY_CONDITIONS with hs | ⟨m', hs⟩
  · rw [checkVictory, hs] at h
    exact absurd h (by simp)
  · rw [checkVictory, hs]

theorem checkVictory_snd_of_none {board : Board}
    (h : (checkVictory board).1 = none) : (checkVictory board).2 = 0 := by
  rcases checkVictoryAux_shape board VICTORY_CONDITIONS with hs | ⟨m', hs⟩
  · rw [checkVictory, hs]
  · rw [checkVictory, hs] at h
    exact absurd h (by simp)

theorem getOpponentSymbol_ne (s : Mark) : getOpponentSymbol s ≠ s := by
  cases s <;> simp [getOpponentSymbol]

theorem getOpponentSymbol_ne_empty (s : Mark) : getOpponentSymbol s ≠ Mark.empty := by
  cases s <;> simp [getOpponentSymbol]

/-- Unfolding of one step of `__get_possibility_tree` (source lines
115-168), as produced by `getPossibilityTree` at non-zero fuel, with the
two `let` bindings of the loop body inlined. -/
theorem getPossibilityTree_succ (a : Mark) (limit fuel : ℕ) (board : Board)
    (agent_turn : Bool) (branch_level : ℕ) :
    getPossibilityTree a limit (fuel + 1) board agent_turn branch_level =
      if (availablePlays board).length = 0 then []
      else if branch_level + 1 > limit then []
      else
        (availablePlays board).map (fun play =>
          (play, PlayNode.mk
            (match (checkVictory (Function.update board play
                (if agent_turn then a else getOpponentSymbol a))).1 with
             | some victory =>
                 (checkVictory (Function.update board play
                   (if agent_turn then a else getOpponentSymbol a))).2 /
                   (if victory = a then (10 : ℚ) ^ (branch_level + 1 - 1)
                    else -((10 : ℚ) ^ (branch_level + 1 - 1)))
             | none =>
                 (checkVictory (Function.update board play
                   (if agent_turn then a else getOpponentSymbol a))).2)
            agent_turn
            (match (checkVictory (Function.update board play
                (if agent_turn then a else getOpponentSymbol a))).1 with
             | some _ => []
             | none =>
                 getPossibilityTree a limit fuel
                   (Function.update board play
                     (if agent_turn then a else getOpponentSymbol a))
                   (!agent_turn) (branch_level + 1)))) := rfl

/-- The scoring law of claim C1, stated over a whole tree: `d` is the
branch depth of the nodes of `tree` (the root call hands out depth 1), and
`board`/`agent_turn` are the position and mover from which `tree`'s nodes
were generated.  For every node: if the Victory Checker on the node's
board reports the agent's symbol the score is `10 / 10^(d-1)`, if it
reports the opponent's symbol the score is `-(10 / 10^(d-1))`, and if it
reports no winner the score is `0`; each node's branch satisfies the same
law at depth `d + 1`. -/
inductive ScoresOk (a : Mark) : ℕ → Board → Bool → List (Pos × PlayNode) → Prop where
  | intro (d : ℕ) (board : Board) (agent_turn : Bool) (tree : List (Pos × PlayNode))
      (hscore : ∀ pn ∈ tree,
        ((checkVictory (Function.update board pn.1
            (if agent_turn then a else getOpponentSymbol a))).1 = some a →
          PlayNode.score pn.2 = 10 / 10 ^ (d - 1)) ∧
        ((checkVictory (Function.update board pn.1
            (if agent_turn then a else getOpponentSymbol a))).1 = some (getOpponentSymbol a) →
          PlayNode.score pn.2 = -(10 / 10 ^ (d - 1))) ∧
        ((checkVictory (Function.update board pn.1
            (if agent_turn then a else getOpponentSymbol a))).1 = none →
          PlayNode.score pn.2 = 0))
      (hrec : ∀ pn ∈ tree,
        ScoresOk a (d + 1)
          (Function.update board pn.1 (if agent_turn then a else getOpponentSymbol a))
          (!agent_turn) (PlayNode.branch pn.2)) :
      ScoresOk a d board agent_turn tree

theorem scoresOk_nil (a : Mark) (d : ℕ) (board : Board) (agent_turn : Bool) :
    ScoresOk a d board agent_turn [] :=
  .intro d board agent_turn []
    (by intro pn h; exact absurd h (List.not_mem_nil _))
    (by intro pn h; exact absurd h (List.not_mem_nil _))

theorem scoresOk_getPossibilityTree (a : Mark) (limit fuel : ℕ) :
    ∀ (board : Board) (agent_turn : Bool) (branch_level : ℕ),
      ScoresOk a (branch_level + 1) board agent_turn
        (getPossibilityTree a limit fuel board agent_turn branch_level) := by
  induction fuel with
  | zero => intro board agent_turn branch_level; exact scoresOk_nil _ _ _ _
  | succ fuel ih =>
      intro board agent_turn branch_level
      rw [getPossibilityTree_succ]
      split
      · exact scoresOk_nil _ _ _ _
      split
      · exact scoresOk_nil _ _ _ _
      refine .intro _ _ _ _ ?_ ?_
      · intro pn hmem
        obtain ⟨play, hplay, rfl⟩ := List.mem_map.mp hmem
        dsimp only [PlayNode.score]
        refine ⟨?_, ?_, ?_⟩
        · intro hv
          rw [hv]
          dsimp only
          rw [checkVictory_snd_of_some hv, if_pos rfl]
        · intro hv
          rw [hv]
          dsimp only
          rw [checkVictory_snd_of_some hv, if_neg (getOpponentSymbol_ne a), div_neg]
        · intro hv
          rw [hv]
          dsimp only
          exact checkVictory_snd_of_none hv
      · intro pn hmem
        obtain ⟨play, hplay, rfl⟩ := List.mem_map.mp hmem
        dsimp only [PlayNode.branch]
        rcases hv : (checkVictory (Function.update board play
            (if agent_turn then a else getOpponentSymbol a))).1 with _ | m
        · exact ih _ (!agent_turn) (branch_level + 1)
        · exact scoresOk_nil _ _ _ _

/-- C1.  In the tree built by `__get_possibility_tree` (seeded as in
`__get_agent_move`: a stored board, the agent's turn, `branch_level = 0`,
any depth limit), every node created at branch depth `d` (root children at
`d = 1`) at which the Victory Checker detects a win scores
`10 / 10^(d-1)` when the winning mark is the agent's symbol and
`-(10 / 10^(d-1))` when it is the opponent's symbol, and every node at
which no win is detected scores `0`. -/
theorem possibilityTree_score_decay (a : Mark) (limit : ℕ) (board : Board) :
    ScoresOk a 1 board true (getPossibilityTree a limit 9 board true 0) :=
  scoresOk_getPossibilityTree a limit 9 board true 0

/-! ## Possibility tree: shape (claim C5) -/

theorem mem_availablePlays {board : Board} {p : Pos} :
    p ∈ availablePlays board ↔ board p = Mark.empty := by
  simp [availablePlays]

theorem availablePlays_nodup (board : Board) : (availablePlays board).Nodup :=
  (List.nodup_finRange 9).filter _

theorem availablePlays_update (board : Board) (p : Pos) (m : Mark)
    (hm : m ≠ Mark.empty) :
    availablePlays (Function.update board p m) =
      (availablePlays board).filter (fun q => q != p) := by
  unfold availablePlays
  rw [List.filter_filter]
  apply List.filter_congr
  intro q _
  rcases eq_or_ne q p with rfl | hqp
  · simp [Function.update_same, hm]
  · simp [Function.update_noteq hqp, hqp]

theorem length_availablePlays_update (board : Board) (p : Pos) (m : Mark)
    (hm : m ≠ Mark.empty) (hp : board p = Mark.empty) :
    (availablePlays (Function.update board p m)).length =
      (availablePlays board).length - 1 := by
  rw [availablePlays_update board p m hm]
  have he : (availablePlays board).erase p =
      (availablePlays board).filter (fun q => q != p) :=
    (availablePlays_nodup board).erase_eq_filter p
  rw [← he, List.length_erase_of_mem (mem_availablePlays.mpr hp)]

theorem getPossibilityTree_length (a : Mark) (limit fuel : ℕ) (board : Board)
    (agent_turn : Bool) (branch_level : ℕ) :
    getPossibilityTree a limit fuel board agent_turn branch_level = [] ∨
    (getPossibilityTree a limit fuel board agent_turn branch_level).length =
      (availablePlays board).length := by
  cases fuel with
  | zero => exact Or.inl rfl
  | succ fuel =>
      rw [getPossibilityTree_succ]
      split
      · exact Or.inl rfl
      split
      · exact Or.inl rfl
      exact Or.inr (List.length_map _ _)

theorem getPossibilityTree_keys (a : Mark) (limit fuel : ℕ) (board : Board)
    (agent_turn : Bool) (branch_level : ℕ)
    (h1 : (availablePlays board).length ≠ 0) (h2 : branch_level + 1 ≤ limit) :
    (getPossibilityTree a limit (fuel + 1) board agent_turn branch_level).map Prod.fst =
      availablePlays board := by
  rw [getPossibilityTree_succ, if_neg h1, if_neg (by omega), List.map_map]
  conv_rhs => rw [← List.map_id (availablePlays board)]
  apply List.map_congr_left
  intro x _
  rfl

/-- The claim's strictly-decreasing branching condition: every node of
the tree has strictly fewer children than its parent has (the root
counting its first-level entries), recursively. -/
inductive StrictDecr : List (Pos × PlayNode) → Prop where
  | intro (tree : List (Pos × PlayNode))
      (hlen : ∀ pn ∈ tree, (PlayNode.branch pn.2).length < tree.length)
      (hrec : ∀ pn ∈ tree, StrictDecr (PlayNode.branch pn.2)) :
      StrictDecr tree

theorem strictDecr_nil : StrictDecr [] :=
  .intro []
    (by intro pn h; exact absurd h (List.not_mem_nil _))
    (by intro pn h; exact absurd h (List.not_mem_nil _))

/-- The mark placed by the tree builder is never the empty mark, as long as
the agent's symbol is not the empty mark. -/
theorem moverMark_ne_empty {a : Mark} (ha : a ≠ Mark.empty) (agent_turn : Bool) :
    (if agent_turn then a else getOpponentSymbol a) ≠ Mark.empty := by
  cases agent_turn
  · simpa using getOpponentSymbol_ne_empty a
  · simpa using ha

theorem strictDecr_getPossibilityTree {a : Mark} (ha : a ≠ Mark.empty)
    (limit fuel : ℕ) :
    ∀ (board : Board) (agent_turn : Bool) (branch_level : ℕ),
      StrictDecr (getPossibilityTree a limit fuel board agent_turn branch_level) := by
  induction fuel with
  | zero => intro board agent_turn branch_level; exact strictDecr_nil
  | succ fuel ih =>
      intro board agent_turn branch_level
      rw [getPossibilityTree_succ]
      split
      · exact strictDecr_nil
      split
      · exact strictDecr_nil
      rename_i hlen0 _
      refine .intro _ ?_ ?_
      · intro pn hmem
        obtain ⟨play, hplay, rfl⟩ := List.mem_map.mp hmem
        dsimp only [PlayNode.branch]
        rw [List.length_map]
        have hk : 1 ≤ (availablePlays board).length := Nat.one_le_iff_ne_zero.mpr hlen0
        rcases hv : (checkVictory (Function.update board play
            (if agent_turn then a else getOpponentSymbol a))).1 with _ | m
        · have hupd := length_availablePlays_update board play
            (if agent_turn then a else getOpponentSymbol a)
            (moverMark_ne_empty ha agent_turn) (mem_availablePlays.mp hplay)
          rcases getPossibilityTree_length a limit fuel
              (Function.update board play (if agent_turn then a else getOpponentSymbol a))
              (!agent_turn) (branch_level + 1) with hnil | hl
          · rw [hnil]
            simpa using hk
          · rw [hl, hupd]
            omega
        · simpa using hk
      · intro pn hmem
        obtain ⟨play, hplay, rfl⟩ := List.mem_map.mp hmem
        dsimp only [PlayNode.branch]
        rcases hv : (checkVictory (Function.update board play
            (if agent_turn then a else getOpponentSymbol a))).1 with _ | m
        · exact ih _ (!agent_turn) (branch_level + 1)
        · exact strictDecr_nil

/-- The length (in plies) of the longest path of a tree. -/
def treeDepth : List (Pos × PlayNode) → ℕ
  | [] => 0
  | (_, PlayNode.mk _ _ br) :: rest => max (1 + treeDepth br) (treeDepth rest)

theorem treeDepth_nil : treeDepth [] = 0 := by
  simp [treeDepth]

theorem treeDepth_le_of_forall (t : List (Pos × PlayNode)) (b : ℕ) (hb : 1 ≤ b)
    (h : ∀ pn ∈ t, treeDepth (PlayNode.branch pn.2) ≤ b - 1) : treeDepth t ≤ b := by
  induction t with
  | nil =>
      rw [treeDepth_nil]
      exact Nat.zero_le b
  | cons kv rest ih =>
      obtain ⟨p, s, turn, br⟩ := kv
      rw [treeDepth]
      refine max_le ?_ (ih fun pn hpn => h pn (List.mem_cons_of_mem _ hpn))
      have := h (p, PlayNode.mk s turn br) (List.mem_cons_self _ _)
      dsimp only [PlayNode.branch] at this
      omega

theorem treeDepth_getPossibilityTree {a : Mark} (ha : a ≠ Mark.empty)
    (limit fuel : ℕ) :
    ∀ (board : Board) (agent_turn : Bool) (branch_level : ℕ),
      treeDepth (getPossibilityTree a limit fuel board agent_turn branch_level) ≤
        min (availablePlays board).length (limit - branch_level) := by
  induction fuel with
  | zero =>
      intro board agent_turn branch_level
      rw [getPossibilityTree, treeDepth_nil]
      exact Nat.zero_le _
  | succ fuel ih =>
      intro board agent_turn branch_level
      rw [getPossibilityTree_succ]
      split
      · rw [treeDepth_nil]
        exact Nat.zero_le _
      split
      · rw [treeDepth_nil]
        exact Nat.zero_le _
      rename_i hlen0 hlim
      have hk : 1 ≤ (availablePlays board).length := Nat.one_le_iff_ne_zero.mpr hlen0
      have hlim' : branch_level + 1 ≤ limit := by omega
      refine treeDepth_le_of_forall _ _ (by omega) ?_
      intro pn hmem
      obtain ⟨play, hplay, rfl⟩ := List.mem_map.mp hmem
      dsimp only [PlayNode.branch]
      rcases hv : (checkVictory (Function.update board play
          (if agent_turn then a else getOpponentSymbol a))).1 with _ | m
      · have hupd := length_availablePlays_update board play
          (if agent_turn then a else getOpponentSymbol a)
          (moverMark_ne_empty ha agent_turn) (mem_availablePlays.mp hplay)
        have hrec := ih (Function.update board play
            (if agent_turn then a else getOpponentSymbol a)) (!agent_turn) (branch_level + 1)
        rw [hupd] at hrec
        refine le_trans hrec ?_
        omega
      · rw [treeDepth_nil]
        omega

theorem limitBranchDepth_pos (accuracy : ℚ) (board : Board)
    (hk : 1 ≤ maximumBranchDepth board) : 1 ≤ limitBranchDepth accuracy board := by
  unfold limitBranchDepth
  dsimp only
  split
  · omega
  split
  · exact hk
  split
  · omega
  · omega

/-- C5.  The tree built by `__get_possibility_tree` from a board with `k`
empty cells and the computed depth limit `L = limitBranchDepth accuracy
board` has exactly the `k` empty cells as its first-level entries (hence
exactly `k` of them, with no duplicate keys, whenever `k ≥ 1`; the
computed limit is then automatically `≥ 1`), the number of children
strictly decreases with each level along every path, and no path is
longer than `min k L` plies. -/
theorem possibilityTree_shape (a : Mark) (accuracy : ℚ) (board : Board)
    (ha : a ≠ Mark.empty) :
    (1 ≤ maximumBranchDepth board →
      (getPossibilityTree a (limitBranchDepth accuracy board) 9 board true 0).map Prod.fst =
        availablePlays board ∧
      (getPossibilityTree a (limitBranchDepth accuracy board) 9 board true 0).length =
        maximumBranchDepth board) ∧
    StrictDecr (getPossibilityTree a (limitBranchDepth accuracy board) 9 board true 0) ∧
    treeDepth (getPossibilityTree a (limitBranchDepth accuracy board) 9 board true 0) ≤
      min (maximumBranchDepth board) (limitBranchDepth accuracy board) := by
  refine ⟨?_, ?_, ?_⟩
  · intro hk
    have hk' : (availablePlays board).length ≠ 0 := by
      have hne : maximumBranchDepth board ≠ 0 := by omega
      simpa [maximumBranchDepth] using hne
    have hkeys := getPossibilityTree_keys a (limitBranchDepth accuracy board) 8 board true 0
      hk' (by simpa using limitBranchDepth_pos accuracy board hk)
    refine ⟨hkeys, ?_⟩
    have := congrArg List.length hkeys
    rw [List.length_map] at this
    exact this
  · exact strictDecr_getPossibilityTree ha (limitBranchDepth accuracy board) 9 board true 0
  · have := treeDepth_getPossibilityTree ha (limitBranchDepth accuracy board) 9 board true 0
    simpa [maximumBranchDepth] using this

/-- The sample board hard-coded in the source's entry point (source lines
257-259): keys `7 8 9 / 4 5 6 / 1 2 3` hold `O X _ / X O O / _ _ X`. -/
def sampleBoard : Board := fun p =>
  match (p : Fin 9) with
  | 0 => Mark.empty
  | 1 => Mark.empty
  | 2 => Mark.X
  | 3 => Mark.X
  | 4 => Mark.O
  | 5 => Mark.O
  | 6 => Mark.O
  | 7 => Mark.X
  | 8 => Mark.empty

theorem possibilityTree_shape_witness :
    (1 ≤ maximumBranchDepth sampleBoard →
      (getPossibilityTree Mark.X (limitBranchDepth 1 sampleBoard) 9 sampleBoard true 0).map Prod.fst =
        availablePlays sampleBoard ∧
      (getPossibilityTree Mark.X (limitBranchDepth 1 sampleBoard) 9 sampleBoard true 0).length =
        maximumBranchDepth sampleBoard) ∧
    StrictDecr (getPossibilityTree Mark.X (limitBranchDepth 1 sampleBoard) 9 sampleBoard true 0) ∧
    treeDepth (getPossibilityTree Mark.X (limitBranchDepth 1 sampleBoard) 9 sampleBoard true 0) ≤
      min (maximumBranchDepth sampleBoard) (limitBranchDepth 1 sampleBoard) :=
  possibilityTree_shape Mark.X 1 sampleBoard (by decide)

/-! ## Move selection pipeline: claims C9, C6, C4 -/

theorem getD_mod_mem {l : List Pos} (h : l ≠ []) (c : ℕ) :
    l.getD (c % l.length) 0 ∈ l := by
  have hlt : c % l.length < l.length := Nat.mod_lt _ (List.length_pos.mpr h)
  rw [List.getD_eq_getElem l 0 hlt]
  exact List.getElem_mem hlt

theorem exists_oracle_getD {l : List Pos} {m : Pos} (h : m ∈ l) :
    ∃ c, l.getD (c % l.length) 0 = m := by
  refine ⟨l.indexOf m, ?_⟩
  have hlt : l.indexOf m < l.length := List.indexOf_lt_length.mpr h
  rw [Nat.mod_eq_of_lt hlt, List.getD_eq_getElem l 0 hlt]
  exact List.getElem_indexOf hlt

theorem countBlankVals_eq (board : Board) :
    countBlankVals board = (availablePlays board).length := by
  unfold countBlankVals availablePlays
  rw [List.count_eq_countP, List.countP_map, List.countP_eq_length_filter]
  have hc : ∀ p ∈ List.finRange 9,
      ((fun x => x == Mark.empty) ∘ board) p = decide (board p = Mark.empty) := by
    intro p _
    simp only [Function.comp_apply]
    cases hb : board p <;> rfl
  rw [List.filter_congr hc]

theorem possibilityTreeOf_keys (a : TicTacToeAgent)
    (hfree : availablePlays a.board ≠ []) :
    (possibilityTreeOf a).map Prod.fst = availablePlays a.board := by
  have hk : 1 ≤ maximumBranchDepth a.board := by
    unfold maximumBranchDepth
    exact List.length_pos.mpr hfree
  have h2 : 0 + 1 ≤ limitBranchDepth a.accuracy a.board := by
    simpa using limitBranchDepth_pos a.accuracy a.board hk
  unfold possibilityTreeOf
  exact getPossibilityTree_keys a.agent_symbol _ 8 a.board true 0
    (by have := List.length_pos.mpr hfree; omega) h2

theorem branchScores_fst (a : TicTacToeAgent)
    (hfree : availablePlays a.board ≠ []) :
    (branchScores a).map Prod.fst = availablePlays a.board := by
  unfold branchScores
  rw [List.map_map]
  have hcomp : (Prod.fst ∘ fun mb : Pos × PlayNode =>
      (mb.1, round7 (evaluateMoves [mb] 0))) = Prod.fst := rfl
  rw [hcomp]
  exact possibilityTreeOf_keys a hfree

theorem branchScores_ne_nil (a : TicTacToeAgent)
    (hfree : availablePlays a.board ≠ []) : branchScores a ≠ [] := by
  intro h
  have hl := branchScores_fst a hfree
  rw [h] at hl
  exact hfree hl.symm

theorem sortedMoves_perm (a : TicTacToeAgent) :
    (sortedMoves a).Perm (branchScores a) :=
  List.mergeSort_perm (branchScores a) _

theorem sortedMoves_ne_nil (a : TicTacToeAgent)
    (hfree : availablePlays a.board ≠ []) : sortedMoves a ≠ [] := by
  intro h
  have hperm := sortedMoves_perm a
  rw [h] at hperm
  exact branchScores_ne_nil a hfree hperm.nil_eq.symm

theorem sortedMoves_pairwise (a : TicTacToeAgent) :
    List.Pairwise (fun x y : Pos × ℚ => (decide (y.2 ≤ x.2)) = true) (sortedMoves a) := by
  apply List.sorted_mergeSort
  · intro x y z hxy hyz
    have h1 : y.2 ≤ x.2 := of_decide_eq_true hxy
    have h2 : z.2 ≤ y.2 := of_decide_eq_true hyz
    exact decide_eq_true (le_trans h2 h1)
  · intro x y
    rw [Bool.or_eq_true]
    rcases le_total y.2 x.2 with h | h
    · exact Or.inl (decide_eq_true h)
    · exact Or.inr (decide_eq_true h)

theorem mem_le_head_score (a : TicTacToeAgent) {m0 : Pos} {s0 : ℚ}
    {rest : List (Pos × ℚ)} (h : sortedMoves a = (m0, s0) :: rest) :
    ∀ x ∈ branchScores a, x.2 ≤ s0 := by
  intro x hx
  have hx' : x ∈ sortedMoves a := ((sortedMoves_perm a).mem_iff).mpr hx
  rw [h] at hx'
  rcases List.mem_cons.mp hx' with rfl | hmem
  · exact le_refl _
  · have hp := sortedMoves_pairwise a
    rw [h] at hp
    exact of_decide_eq_true ((List.pairwise_cons.mp hp).1 x hmem)

theorem mem_tiedMoves {a : TicTacToeAgent} {m : Pos} (hm : m ∈ tiedMoves a) :
    ∃ s, (m, s) ∈ branchScores a ∧ ∀ x ∈ branchScores a, x.2 ≤ s := by
  unfold tiedMoves at hm
  split at hm
  · exact absurd hm (List.not_mem_nil _)
  · rename_i m0 s0 rest heq
    obtain ⟨⟨m', s'⟩, hmem, rfl⟩ := List.mem_map.mp hm
    obtain ⟨hin, hcond⟩ := List.mem_filter.mp hmem
    have hs' : s' = s0 := of_decide_eq_true hcond
    refine ⟨s', ((sortedMoves_perm a).mem_iff).mp hin, ?_⟩
    rw [hs']
    exact mem_le_head_score a heq

theorem tiedMoves_complete {a : TicTacToeAgent} {m : Pos} {s : ℚ}
    (hm : (m, s) ∈ branchScores a)
    (hmax : ∀ x ∈ branchScores a, x.2 ≤ s) : m ∈ tiedMoves a := by
  have hm' : (m, s) ∈ sortedMoves a := ((sortedMoves_perm a).mem_iff).mpr hm
  unfold tiedMoves
  split
  · rename_i heq
    rw [heq] at hm'
    exact absurd hm' (List.not_mem_nil _)
  · rename_i m0 s0 rest heq
    have hhead : (m0, s0) ∈ branchScores a := by
      have hh : (m0, s0) ∈ sortedMoves a := by
        rw [heq]
        exact List.mem_cons_self _ _
      exact ((sortedMoves_perm a).mem_iff).mp hh
    have hss : s = s0 := le_antisymm (mem_le_head_score a heq (m, s) hm) (hmax _ hhead)
    refine List.mem_map.mpr ⟨(m, s), List.mem_filter.mpr ⟨hm', ?_⟩, rfl⟩
    exact decide_eq_true hss

theorem tiedMoves_ne_nil (a : TicTacToeAgent)
    (hfree : availablePlays a.board ≠ []) : tiedMoves a ≠ [] := by
  have hnil := sortedMoves_ne_nil a hfree
  rcases hs : sortedMoves a with _ | ⟨⟨m0, s0⟩, rest⟩
  · exact absurd hs hnil
  · have hhead : (m0, s0) ∈ branchScores a :=
      ((sortedMoves_perm a).mem_iff).mp (by rw [hs]; exact List.mem_cons_self _ _)
    have hmem : m0 ∈ tiedMoves a :=
      tiedMoves_complete hhead (mem_le_head_score a hs)
    intro h
    rw [h] at hmem
    exact absurd hmem (List.not_mem_nil _)

theorem getAgentMove_eq (a : TicTacToeAgent) (c : ℕ)
    (hfree : availablePlays a.board ≠ []) :
    getAgentMove a c =
      .ok ((tiedMoves a).getD (c % (tiedMoves a).length) 0,
        movedAgent a ((tiedMoves a).getD (c % (tiedMoves a).length) 0)) := by
  unfold getAgentMove
  split
  · rename_i heq
    exact absurd heq (sortedMoves_ne_nil a hfree)
  · rfl

/-- C4.  In the search-and-selection phase (opening test false, at least
one empty cell), `get_move` runs `__get_agent_move`; for every oracle
outcome of the tie-break the returned key is a first-level move whose
branch score is maximal among all first-level moves, the chosen cell is
committed to the stored board (`movedAgent`), and every first-level move
tied for the maximal score is a possible outcome of the choice. -/
theorem getMove_selects_max (random_initial_moves : Bool) (a : TicTacToeAgent) (c : ℕ)
    (hop : ((random_initial_moves && isInitialMove a 2) || isInitialMove a 1) = false)
    (hfree : availablePlays a.board ≠ []) :
    getMove random_initial_moves a c = getAgentMove a c ∧
    (∃ m s, getMove random_initial_moves a c = .ok (m, movedAgent a m) ∧
      (m, s) ∈ branchScores a ∧ ∀ x ∈ branchScores a, x.2 ≤ s) ∧
    (∀ m' s', (m', s') ∈ branchScores a → (∀ x ∈ branchScores a, x.2 ≤ s') →
      ∃ c', getMove random_initial_moves a c' = .ok (m', movedAgent a m')) := by
  have hgm : ∀ c', getMove random_initial_moves a c' = getAgentMove a c' := by
    intro c'
    unfold getMove
    rw [hop]
    simp
  refine ⟨hgm c, ?_, ?_⟩
  · have hchosen : (tiedMoves a).getD (c % (tiedMoves a).length) 0 ∈ tiedMoves a :=
      getD_mod_mem (tiedMoves_ne_nil a hfree) c
    obtain ⟨s, hmem, hmax⟩ := mem_tiedMoves hchosen
    refine ⟨_, s, ?_, hmem, hmax⟩
    rw [hgm c]
    exact getAgentMove_eq a c hfree
  · intro m' s' hmem hmax
    have hm' : m' ∈ tiedMoves a := tiedMoves_complete hmem hmax
    obtain ⟨c', hc'⟩ := exists_oracle_getD hm'
    refine ⟨c', ?_⟩
    rw [hgm c', getAgentMove_eq a c' hfree, hc']

/-- Witness for C4 at the sample board of the source's entry point. -/
theorem getMove_selects_max_witness :
    (getMove false ⟨sampleBoard, Mark.X, 1⟩ 0 = getAgentMove ⟨sampleBoard, Mark.X, 1⟩ 0 ∧
    (∃ m s, getMove false ⟨sampleBoard, Mark.X, 1⟩ 0 =
        .ok (m, movedAgent ⟨sampleBoard, Mark.X, 1⟩ m) ∧
      (m, s) ∈ branchScores ⟨sampleBoard, Mark.X, 1⟩ ∧
      ∀ x ∈ branchScores ⟨sampleBoard, Mark.X, 1⟩, x.2 ≤ s) ∧
    (∀ m' s', (m', s') ∈ branchScores ⟨sampleBoard, Mark.X, 1⟩ →
      (∀ x ∈ branchScores ⟨sampleBoard, Mark.X, 1⟩, x.2 ≤ s') →
      ∃ c', getMove false ⟨sampleBoard, Mark.X, 1⟩ c' =
        .ok (m', movedAgent ⟨sampleBoard, Mark.X, 1⟩ m'))) :=
  getMove_selects_max false ⟨sampleBoard, Mark.X, 1⟩ 0 (by decide) (by decide)

/-! ## Opening move (claim C9) and full board (claim C6) -/

/-- C9.  When the random-opening mode is off and the board holds zero
marks, or the mode is on and the board holds fewer than 2 marks,
`get_move` takes the `__get_random_move` branch (whose definition performs
no tree search): some empty position is chosen and committed, and every
empty position is a possible outcome of the uniform choice. -/
theorem getMove_opening_random (random_initial_moves : Bool) (a : TicTacToeAgent) (c : ℕ)
    (hop : (random_initial_moves = false ∧ 9 - countBlankVals a.board = 0) ∨
           (random_initial_moves = true ∧ 9 - countBlankVals a.board < 2)) :
    getMove random_initial_moves a c = getRandomMove a c ∧
    (∃ m ∈ availablePlays a.board,
      getMove random_initial_moves a c = .ok (m, movedAgent a m)) ∧
    (∀ m ∈ availablePlays a.board,
      ∃ c', getMove random_initial_moves a c' = .ok (m, movedAgent a m)) := by
  have hfree : availablePlays a.board ≠ [] := by
    have hcb := countBlankVals_eq a.board
    have hlen : 1 ≤ (availablePlays a.board).length := by
      rcases hop with ⟨_, h⟩ | ⟨_, h⟩ <;> omega
    exact List.length_pos.mp hlen
  have hcond : ((random_initial_moves && isInitialMove a 2) || isInitialMove a 1) = true := by
    rcases hop with ⟨hmode, h⟩ | ⟨hmode, h⟩
    · subst hmode
      have h1 : isInitialMove a 1 = true := decide_eq_true (by omega)
      rw [h1, Bool.or_true]
    · subst hmode
      have h2 : isInitialMove a 2 = true := decide_eq_true h
      rw [h2, Bool.true_and, Bool.true_or]
  have hgm : ∀ c', getMove random_initial_moves a c' = getRandomMove a c' := by
    intro c'
    unfold getMove
    rw [hcond]
    simp
  have hrand : ∀ c', getRandomMove a c' =
      .ok ((availablePlays a.board).getD (c' % (availablePlays a.board).length) 0,
        movedAgent a ((availablePlays a.board).getD (c' % (availablePlays a.board).length) 0)) := by
    intro c'
    unfold getRandomMove
    split
    · rename_i heq
      exact absurd heq hfree
    · rfl
  refine ⟨hgm c, ?_, ?_⟩
  · refine ⟨(availablePlays a.board).getD (c % (availablePlays a.board).length) 0,
      getD_mod_mem hfree c, ?_⟩
    rw [hgm c, hrand c]
  · intro m hm
    obtain ⟨c', hc'⟩ := exists_oracle_getD hm
    refine ⟨c', ?_⟩
    rw [hgm c', hrand c', hc']

/-- The empty board. -/
def emptyBoard : Board := fun _ => Mark.empty

/-- Witness for C9: the empty board with the random-opening mode off. -/
theorem getMove_opening_random_witness :
    (getMove false ⟨emptyBoard, Mark.X, 1⟩ 0 = getRandomMove ⟨emptyBoard, Mark.X, 1⟩ 0 ∧
    (∃ m ∈ availablePlays emptyBoard,
      getMove false ⟨emptyBoard, Mark.X, 1⟩ 0 = .ok (m, movedAgent ⟨emptyBoard, Mark.X, 1⟩ m)) ∧
    (∀ m ∈ availablePlays emptyBoard,
      ∃ c', getMove false ⟨emptyBoard, Mark.X, 1⟩ c' =
        .ok (m, movedAgent ⟨emptyBoard, Mark.X, 1⟩ m))) :=
  getMove_opening_random false ⟨emptyBoard, Mark.X, 1⟩ 0 (Or.inl ⟨rfl, by decide⟩)

theorem getMove_no_free_raises (random_initial_moves : Bool) (a : TicTacToeAgent) (c : ℕ)
    (hfull : maximumBranchDepth a.board = 0) :
    getMove random_initial_moves a c = .error PyErr.indexError := by
  have hlen : (availablePlays a.board).length = 0 := hfull
  have hnil : availablePlays a.board = [] := List.length_eq_zero.mp hlen
  have hcb : countBlankVals a.board = 0 := by
    rw [countBlankVals_eq, hlen]
  have h1 : isInitialMove a 1 = false := by
    apply decide_eq_false
    rw [hcb]
    omega
  have h2 : isInitialMove a 2 = false := by
    apply decide_eq_false
    rw [hcb]
    omega
  have htree : possibilityTreeOf a = [] := by
    unfold possibilityTreeOf
    rw [getPossibilityTree_succ, if_pos hlen]
  have hbs : branchScores a = [] := by
    unfold branchScores
    rw [htree]
    rfl
  have hsorted : sortedMoves a = [] := by
    have hperm := sortedMoves_perm a
    rw [hbs] at hperm
    exact hperm.eq_nil
  have hcond : ((random_initial_moves && isInitialMove a 2) || isInitialMove a 1) = false := by
    rw [h1, h2, Bool.and_false, Bool.or_false]
  unfold getMove
  rw [hcond]
  simp only [Bool.false_eq_true, if_false]
  unfold getAgentMove
  rw [hsorted]

/-- C6 (amended).  When the stored board has no empty cell, `get_move`
does not return a defined "no move" result: it raises `IndexError`
(`best_moves[0]` on the empty ranked list, source line 106), modelled as
`Except.error PyErr.indexError`. -/
theorem getMove_full_board_raises (random_initial_moves : Bool) (a : TicTacToeAgent) (c : ℕ)
    (hfull : maximumBranchDepth a.board = 0) :
    getMove random_initial_moves a c = .error PyErr.indexError :=
  getMove_no_free_raises random_initial_moves a c hfull

/-- C6 counterexample: on the full (drawn) board the call raises
`IndexError` instead of returning a defined boundary result. -/
theorem getMove_full_board_claim_false :
    getMove false ⟨drawBoard, Mark.X, 1⟩ 0 = .error PyErr.indexError :=
  getMove_no_free_raises false ⟨drawBoard, Mark.X, 1⟩ 0 (by decide)

/-- Witness for C6 (amended) on the drawn board. -/
theorem getMove_full_board_raises_witness :
    getMove true ⟨drawBoard, Mark.O, 0⟩ 7 = .error PyErr.indexError :=
  getMove_full_board_raises true ⟨drawBoard, Mark.O, 0⟩ 7 (by decide)

/-! ## Branch-score rounding (claim C10) -/

/-- A rational that is an integer multiple of the rounding resolution
`10^-7` of `round(x, 7)`. -/
def Res7 (q : ℚ) : Prop := ∃ z : ℤ, q = (z : ℚ) / 10 ^ 7

theorem res7_zero : Res7 0 := ⟨0, by norm_num⟩

theorem res7_add {x y : ℚ} (hx : Res7 x) (hy : Res7 y) : Res7 (x + y) := by
  obtain ⟨zx, rfl⟩ := hx
  obtain ⟨zy, rfl⟩ := hy
  refine ⟨zx + zy, ?_⟩
  push_cast
  rw [div_add_div_same]

theorem res7_neg {x : ℚ} (hx : Res7 x) : Res7 (-x) := by
  obtain ⟨z, rfl⟩ := hx
  refine ⟨-z, ?_⟩
  push_cast
  rw [neg_div]

theorem res7_decay {lvl : ℕ} (h : lvl ≤ 8) : Res7 ((10 : ℚ) / 10 ^ lvl) := by
  refine ⟨10 ^ (8 - lvl), ?_⟩
  rw [div_eq_div_iff (by positivity) (by positivity)]
  push_cast
  rw [← pow_add]
  have he : 8 - lvl + lvl = 8 := by omega
  rw [he]
  norm_num

/-- On an exact multiple of `10^-7`, `round(x, 7)` is the identity. -/
theorem round7_of_res7 {q : ℚ} (h : Res7 q) : round7 q = q := by
  obtain ⟨z, rfl⟩ := h
  unfold round7
  dsimp only
  have hx : (z : ℚ) / 10 ^ 7 * 10 ^ 7 = (z : ℚ) := by field_simp
  rw [hx, Int.floor_intCast, sub_self, if_pos (by norm_num : (0 : ℚ) < 1 / 2)]

/-- Two multiples of `10^-7` within less than `10^-7` of each other are
equal. -/
theorem res7_eq_of_close {x y : ℚ} (hx : Res7 x) (hy : Res7 y)
    (h : |x - y| < 1 / 10 ^ 7) : x = y := by
  obtain ⟨zx, rfl⟩ := hx
  obtain ⟨zy, rfl⟩ := hy
  have h2 : |(zx : ℚ) / 10 ^ 7 - (zy : ℚ) / 10 ^ 7| =
      |(zx : ℚ) - (zy : ℚ)| / 10 ^ 7 := by
    rw [div_sub_div_same, abs_div, abs_of_pos (by positivity : (0 : ℚ) < 10 ^ 7)]
  rw [h2] at h
  have h3 : |(zx : ℚ) - (zy : ℚ)| < 1 :=
    (div_lt_div_iff_of_pos_right (by positivity : (0 : ℚ) < 10 ^ 7)).mp h
  have hz : zx = zy := by
    by_contra hne
    have h1 : (1 : ℚ) ≤ |(zx : ℚ) - (zy : ℚ)| := by
      rw [← Int.cast_sub, ← Int.cast_abs]
      exact_mod_cast Int.one_le_abs (sub_ne_zero.mpr hne)
    linarith
  rw [hz]

/-- Every node score of `tree` (recursively) is a multiple of `10^-7`. -/
inductive AllRes7 : List (Pos × PlayNode) → Prop where
  | intro (tree : List (Pos × PlayNode))
      (hs : ∀ pn ∈ tree, Res7 (PlayNode.score pn.2))
      (hr : ∀ pn ∈ tree, AllRes7 (PlayNode.branch pn.2)) :
      AllRes7 tree

theorem allRes7_nil : AllRes7 [] :=
  .intro []
    (by intro pn h; exact absurd h (List.not_mem_nil _))
    (by intro pn h; exact absurd h (List.not_mem_nil _))

theorem allRes7_getPossibilityTree (a : Mark) (limit : ℕ) :
    ∀ (fuel : ℕ) (board : Board) (agent_turn : Bool) (branch_level : ℕ),
      branch_level + fuel ≤ 9 →
      AllRes7 (getPossibilityTree a limit fuel board agent_turn branch_level) := by
  intro fuel
  induction fuel with
  | zero => intro board agent_turn branch_level _; exact allRes7_nil
  | succ fuel ih =>
      intro board agent_turn branch_level hbl
      rw [getPossibilityTree_succ]
      split
      · exact allRes7_nil
      split
      · exact allRes7_nil
      refine .intro _ ?_ ?_
      · intro pn hmem
        obtain ⟨play, hplay, rfl⟩ := List.mem_map.mp hmem
        dsimp only [PlayNode.score]
        rcases hv : (checkVictory (Function.update board play
            (if agent_turn then a else getOpponentSymbol a))).1 with _ | w
        · rw [checkVictory_snd_of_none hv]
          exact res7_zero
        · rw [checkVictory_snd_of_some hv]
          dsimp only
          by_cases hw : w = a
          · rw [if_pos hw]
            exact res7_decay (by omega)
          · rw [if_neg hw, div_neg]
            exact res7_neg (res7_decay (by omega))
      · intro pn hmem
        obtain ⟨play, hplay, rfl⟩ := List.mem_map.mp hmem
        dsimp only [PlayNode.branch]
        rcases hv : (checkVictory (Function.update board play
            (if agent_turn then a else getOpponentSymbol a))).1 with _ | w
        · exact ih _ (!agent_turn) (branch_level + 1) (by omega)
        · exact allRes7_nil

theorem allRes7_singleton {a : TicTacToeAgent} {pn : Pos × PlayNode}
    (h : pn ∈ possibilityTreeOf a) : AllRes7 [pn] := by
  have h9 : AllRes7 (possibilityTreeOf a) :=
    allRes7_getPossibilityTree a.agent_symbol (limitBranchDepth a.accuracy a.board)
      9 a.board true 0 (by omega)
  rcases h9 with ⟨-, hs, hr⟩
  refine .intro _ ?_ ?_
  · intro x hx
    rw [List.mem_singleton.mp hx]
    exact hs pn h
  · intro x hx
    rw [List.mem_singleton.mp hx]
    exact hr pn h

theorem res7_evaluateMoves :
    ∀ (n : ℕ) (t : List (Pos × PlayNode)) (acc : ℚ), sizeOf t ≤ n →
      AllRes7 t → Res7 acc → Res7 (evaluateMoves t acc) := by
  intro n
  induction n with
  | zero =>
      intro t acc hsz _ hacc
      cases t with
      | nil => simpa [evaluateMoves] using hacc
      | cons kv rest => exact absurd hsz (by simp)
  | succ n ih =>
      intro t acc hsz h7 hacc
      cases t with
      | nil => simpa [evaluateMoves] using hacc
      | cons kv rest =>
          rcases h7 with ⟨-, hs, hr⟩
          have hsc : Res7 (acc + PlayNode.score kv.2) :=
            res7_add hacc (hs kv (List.mem_cons_self _ _))
          have hrest7 : AllRes7 rest := .intro _
            (fun pn hpn => hs pn (List.mem_cons_of_mem _ hpn))
            (fun pn hpn => hr pn (List.mem_cons_of_mem _ hpn))
          have hbr7 : AllRes7 (PlayNode.branch kv.2) :=
            hr kv (List.mem_cons_self _ _)
          have hkv1 : 1 ≤ sizeOf kv := by
            obtain ⟨x, y⟩ := kv
            simp
            omega
          have hcons : sizeOf (kv :: rest) = 1 + sizeOf kv + sizeOf rest := by
            simp
          have hszr : sizeOf rest ≤ n := by omega
          have hszb : sizeOf (PlayNode.branch kv.2) ≤ n := by
            have hb1 := PlayNode.sizeOf_branch_lt kv.2
            have hb2 := sizeOf_snd_lt_cons kv rest
            omega
          rw [evaluateMoves]
          rcases hbr : PlayNode.branch kv.2 with _ | ⟨x, xs⟩
          · exact ih rest _ hszr hrest7 hsc
          · rw [hbr] at hbr7 hszb
            exact ih rest _ hszr hrest7 (ih (x :: xs) _ hszb hbr7 hsc)

theorem res7_branch_sum {a : TicTacToeAgent} {pn : Pos × PlayNode}
    (h : pn ∈ possibilityTreeOf a) : Res7 (evaluateMoves [pn] 0) :=
  res7_evaluateMoves (sizeOf ([pn] : List (Pos × PlayNode))) [pn] 0 le_rfl
    (allRes7_singleton h) res7_zero

/-- C10.  The score used to rank first-level moves is the recursive
subtree sum rounded to 7 decimal places (`branchScores` pairs each move
with `round7 (evaluateMoves [mb] 0)`, source lines 92-96).  Two
first-level moves whose exact summed scores differ by less than the
rounding resolution `10^-7` receive equal rounded scores (on the
reachable trees every exact sum is an integer multiple of `10^-7`, so the
two sums are in fact equal), and when that common rounded score is the
maximum either move is a possible outcome of `__get_agent_move`. -/
theorem branchScores_rounding_ties (a : TicTacToeAgent) (m1 m2 : Pos)
    (n1 n2 : PlayNode)
    (h1 : (m1, n1) ∈ possibilityTreeOf a) (h2 : (m2, n2) ∈ possibilityTreeOf a)
    (hclose : |evaluateMoves [(m1, n1)] 0 - evaluateMoves [(m2, n2)] 0| < 1 / 10 ^ 7) :
    round7 (evaluateMoves [(m1, n1)] 0) = round7 (evaluateMoves [(m2, n2)] 0) ∧
    ((∀ x ∈ branchScores a, x.2 ≤ round7 (evaluateMoves [(m1, n1)] 0)) →
      (∃ c, getAgentMove a c = .ok (m1, movedAgent a m1)) ∧
      (∃ c, getAgentMove a c = .ok (m2, movedAgent a m2))) := by
  have he : evaluateMoves [(m1, n1)] 0 = evaluateMoves [(m2, n2)] 0 :=
    res7_eq_of_close (res7_branch_sum h1) (res7_branch_sum h2) hclose
  refine ⟨by rw [he], ?_⟩
  intro hmax
  have hfree : availablePlays a.board ≠ [] := by
    intro hav
    have hnil : possibilityTreeOf a = [] := by
      unfold possibilityTreeOf
      rw [getPossibilityTree_succ, if_pos (by rw [hav]; rfl)]
    rw [hnil] at h1
    exact absurd h1 (List.not_mem_nil _)
  have hm1 : (m1, round7 (evaluateMoves [(m1, n1)] 0)) ∈ branchScores a :=
    List.mem_map.mpr ⟨(m1, n1), h1, rfl⟩
  have hm2 : (m2, round7 (evaluateMoves [(m2, n2)] 0)) ∈ branchScores a :=
    List.mem_map.mpr ⟨(m2, n2), h2, rfl⟩
  have hmax2 : ∀ x ∈ branchScores a, x.2 ≤ round7 (evaluateMoves [(m2, n2)] 0) := by
    rw [← he]
    exact hmax
  obtain ⟨c1, hc1⟩ := exists_oracle_getD (tiedMoves_complete hm1 hmax)
  obtain ⟨c2, hc2⟩ := exists_oracle_getD (tiedMoves_complete hm2 hmax2)
  refine ⟨⟨c1, ?_⟩, ⟨c2, ?_⟩⟩
  · rw [getAgentMove_eq a c1 hfree, hc1]
  · rw [getAgentMove_eq a c2 hfree, hc2]

/-- Witness for C10 at the one-free-cell board: the unique first-level
node, whose placement wins for `X` at depth 1 (score `10 / 10^0`). -/
theorem branchScores_rounding_ties_witness :
    round7 (evaluateMoves [((8 : Fin 9), PlayNode.mk (10 / 10 ^ 0) true [])] 0) =
      round7 (evaluateMoves [((8 : Fin 9), PlayNode.mk (10 / 10 ^ 0) true [])] 0) ∧
    ((∀ x ∈ branchScores ⟨oneFreeBoard, Mark.X, 1⟩,
        x.2 ≤ round7 (evaluateMoves [((8 : Fin 9), PlayNode.mk (10 / 10 ^ 0) true [])] 0)) →
      (∃ c, getAgentMove ⟨oneFreeBoard, Mark.X, 1⟩ c =
        .ok ((8 : Fin 9), movedAgent ⟨oneFreeBoard, Mark.X, 1⟩ (8 : Fin 9))) ∧
      (∃ c, getAgentMove ⟨oneFreeBoard, Mark.X, 1⟩ c =
        .ok ((8 : Fin 9), movedAgent ⟨oneFreeBoard, Mark.X, 1⟩ (8 : Fin 9)))) := by
  have hm : maximumBranchDepth oneFreeBoard = 1 := by decide
  have h0 : ¬ ((1 : ℚ) ≤ 0) := by norm_num
  have hg : ¬ ((1 : ℚ) > 1) := by norm_num
  have hlim : limitBranchDepth 1 oneFreeBoard = 2 := by
    simp only [limitBranchDepth, hm, if_neg h0, if_neg hg, mul_one, Int.ceil_natCast,
      Int.toNat_natCast]
    norm_num
  have htree : possibilityTreeOf ⟨oneFreeBoard, Mark.X, 1⟩ =
      [((8 : Fin 9), PlayNode.mk (10 / 10 ^ 0) true [])] := by
    show getPossibilityTree Mark.X (limitBranchDepth 1 oneFreeBoard) 9 oneFreeBoard true 0 = _
    rw [hlim]
    rfl
  have hmem : ((8 : Fin 9), PlayNode.mk (10 / 10 ^ 0) true []) ∈
      possibilityTreeOf ⟨oneFreeBoard, Mark.X, 1⟩ := by
    rw [htree]
    exact List.mem_singleton.mpr rfl
  have hclose : |evaluateMoves [((8 : Fin 9), PlayNode.mk (10 / 10 ^ 0) true [])] 0 -
      evaluateMoves [((8 : Fin 9), PlayNode.mk (10 / 10 ^ 0) true [])] 0| < 1 / 10 ^ 7 := by
    rw [sub_self, abs_zero]
    norm_num
  exact branchScores_rounding_ties ⟨oneFreeBoard, Mark.X, 1⟩ 8 8 _ _ hmem hmem hclose

/-! ## Frame property of the tree builder (claim C8)

The functional embedding above cannot even express mutation of a shared
board, so the copy discipline of `__get_possibility_tree` is verified on
a second embedding with explicit board objects: a `BoardStore` is the
heap of `dict` objects (addressed by index), `dict(board)` appends a
fresh copy of the addressed entry, and `updated_board[play] = mark`
mutates that fresh entry in place with `List.set`.  Had the source
mutated the board it was given instead of a copy, the entry at `bid`
would be overwritten and the frame theorem below would fail. -/

/-- The heap of board objects, addressed by index. -/
abbrev BoardStore := List Board

/-- The loop body of `__get_possibility_tree` (source lines 142-166) over
a board store: copy the current board object (`dict(board)`, line 145),
place the mover's mark on the copy (line 146), run the victory checker on
it (line 149) and score the node (lines 150-151), then either close the
branch (victory) or recurse on the fresh copy via `rec`. -/
def stTreeStep (agent_symbol : Mark) (agent_turn : Bool) (branch_level : ℕ) (bid : ℕ)
    (rec : BoardStore → ℕ → BoardStore × List (Pos × PlayNode))
    (acc : BoardStore × List (Pos × PlayNode)) (play : Pos) :
    BoardStore × List (Pos × PlayNode) :=
  let s1 := acc.1 ++ [acc.1.getD bid (fun _ => Mark.empty)]
  let nid := s1.length - 1
  let s2 := s1.set nid
    (Function.update (s1.getD nid (fun _ => Mark.empty)) play
      (if agent_turn then agent_symbol else getOpponentSymbol agent_symbol))
  let vs := checkVictory (s2.getD nid (fun _ => Mark.empty))
  let score : ℚ :=
    match vs.1 with
    | some victory =>
        vs.2 /
          (if victory = agent_symbol then (10 : ℚ) ^ (branch_level - 1)
           else -((10 : ℚ) ^ (branch_level - 1)))
    | none => vs.2
  match vs.1 with
  | some _ => (s2, acc.2 ++ [(play, PlayNode.mk score agent_turn [])])
  | none =>
      let r := rec s2 nid
      (r.1, acc.2 ++ [(play, PlayNode.mk score agent_turn r.2)])

/-- `__get_possibility_tree` over a board store: same recursion as
`getPossibilityTree`, the board argument replaced by the index `bid` of
the board object in the store.  Returns the final store and the tree. -/
def getPossibilityTreeSt (agent_symbol : Mark) (limit : ℕ) :
    ℕ → BoardStore → ℕ → Bool → ℕ → BoardStore × List (Pos × PlayNode)
  | 0, s, _, _, _ => (s, [])
  | fuel + 1, s, bid, agent_turn, branch_level =>
      let board := s.getD bid (fun _ => Mark.empty)
      let available_plays := availablePlays board
      if available_plays.length = 0 then (s, [])
      else
        let branch_level := branch_level + 1
        if branch_level > limit then (s, [])
        else
          available_plays.foldl
            (stTreeStep agent_symbol agent_turn branch_level bid
              (fun s' bid' =>
                getPossibilityTreeSt agent_symbol limit fuel s' bid' (!agent_turn)
                  branch_level))
            (s, [])

theorem getD_append_of_lt {s t : BoardStore} {i : ℕ} (h : i < s.length) (d : Board) :
    (s ++ t).getD i d = s.getD i d := by
  rw [List.getD_eq_getElem _ _ (by rw [List.length_append]; omega),
    List.getD_eq_getElem _ _ h]
  exact List.getElem_append_left h

theorem stTreeStep_fst_append (a : Mark) (agent_turn : Bool) (branch_level : ℕ)
    (bid : ℕ) (rec : BoardStore → ℕ → BoardStore × List (Pos × PlayNode))
    (hrec : ∀ s' bid', ∃ t, (rec s' bid').1 = s' ++ t) :
    ∀ (acc : BoardStore × List (Pos × PlayNode)) (play : Pos),
      ∃ u, (stTreeStep a agent_turn branch_level bid rec acc play).1 = acc.1 ++ u := by
  intro acc play
  unfold stTreeStep
  dsimp only
  have hset : ∀ (v : Board),
      (acc.1 ++ [acc.1.getD bid (fun _ => Mark.empty)]).set
          ((acc.1 ++ [acc.1.getD bid (fun _ => Mark.empty)]).length - 1) v =
        acc.1 ++ [v] := by
    intro v
    rw [List.length_append, List.set_append]
    simp
  split
  · exact ⟨_, by rw [hset]⟩
  · obtain ⟨t, ht⟩ := hrec _ _
    rw [ht, hset]
    exact ⟨_, by rw [List.append_assoc]⟩

theorem getPossibilityTreeSt_fst_append (a : Mark) (limit : ℕ) :
    ∀ (fuel : ℕ) (s : BoardStore) (bid : ℕ) (agent_turn : Bool) (branch_level : ℕ),
      ∃ t, (getPossibilityTreeSt a limit fuel s bid agent_turn branch_level).1 = s ++ t := by
  intro fuel
  induction fuel with
  | zero =>
      intro s bid agent_turn branch_level
      exact ⟨[], (List.append_nil _).symm⟩
  | succ fuel ih =>
      intro s bid agent_turn branch_level
      have hfold : ∀ (l : List Pos) (acc : BoardStore × List (Pos × PlayNode)),
          ∃ t, (l.foldl
              (stTreeStep a agent_turn (branch_level + 1) bid
                (fun s' bid' =>
                  getPossibilityTreeSt a limit fuel s' bid' (!agent_turn)
                    (branch_level + 1)))
              acc).1 = acc.1 ++ t := by
        intro l
        induction l with
        | nil =>
            intro acc
            exact ⟨[], (List.append_nil _).symm⟩
        | cons x xs ihl =>
            intro acc
            obtain ⟨u, hu⟩ := stTreeStep_fst_append a agent_turn (branch_level + 1) bid _
              (fun s' bid' => ih s' bid' (!agent_turn) (branch_level + 1)) acc x
            obtain ⟨t, ht⟩ := ihl _
            refine ⟨u ++ t, ?_⟩
            rw [List.foldl_cons, ht, hu, List.append_assoc]
      rw [getPossibilityTreeSt]
      dsimp only
      split
      · exact ⟨[], (List.append_nil _).symm⟩
      split
      · exact ⟨[], (List.append_nil _).symm⟩
      exact hfold _ (s, [])

/-- C8.  Building the possibility tree never mutates the board object it
is given: every candidate move is placed on a fresh copy
(`stTreeStep` appends the copy and writes only to it), so after
`getPossibilityTreeSt` returns, the input store is a prefix of the final
store — every pre-existing board object, in particular the agent's
stored board at `bid`, is unchanged — and consequently no sibling branch
can observe another sibling's hypothetical move. -/
theorem possibilityTreeSt_frame (a : Mark) (limit fuel : ℕ) (s : BoardStore)
    (bid : ℕ) (agent_turn : Bool) (branch_level : ℕ) (hbid : bid < s.length) :
    (∃ t, (getPossibilityTreeSt a limit fuel s bid agent_turn branch_level).1 = s ++ t) ∧
    (getPossibilityTreeSt a limit fuel s bid agent_turn branch_level).1.getD bid
        (fun _ => Mark.empty) =
      s.getD bid (fun _ => Mark.empty) := by
  obtain ⟨t, ht⟩ := getPossibilityTreeSt_fst_append a limit fuel s bid agent_turn branch_level
  refine ⟨⟨t, ht⟩, ?_⟩
  rw [ht, getD_append_of_lt hbid]

/-- Witness for C8: the store holding just the sample board. -/
theorem possibilityTreeSt_frame_witness :
    (∃ t, (getPossibilityTreeSt Mark.X 2 9 [sampleBoard] 0 true 0).1 = [sampleBoard] ++ t) ∧
    (getPossibilityTreeSt Mark.X 2 9 [sampleBoard] 0 true 0).1.getD 0 (fun _ => Mark.empty) =
      [sampleBoard].getD 0 (fun _ => Mark.empty) :=
  possibilityTreeSt_frame Mark.X 2 9 [sampleBoard] 0 true 0 (by decide)

/-! ## Construction-time validation (claim C7)

`__init__` is modelled over raw boards (arbitrary key-value pairs, as a
Python caller may pass them) to make malformed boards expressible:
missing keys, duplicate keys in the literal, arbitrary mark characters. -/

/-- A raw board argument: an association list of key and value
characters, as in the source's board dict literals. -/
abbrev RawBoard := List (Char × Char)

/-- One insertion of Python dict construction: an existing key keeps its
position and takes the new value, a new key is appended. -/
def dictUpsert : RawBoard → Char × Char → RawBoard
  | [], kv => [kv]
  | (k, v) :: rest, kv =>
      if k = kv.1 then (k, kv.2) :: rest else (k, v) :: dictUpsert rest kv

/-- `dict(board)` (source line 39): first-occurrence key order, last
value wins. -/
def dictOf (l : RawBoard) : RawBoard := l.foldl dictUpsert []

/-- `board[k]` on a raw board; `none` models a raised `KeyError`. -/
def rawLookup (board : RawBoard) (k : Char) : Option Char :=
  (board.find? (fun kv => kv.1 = k)).map Prod.snd

/-- The state stored by `__init__` (source lines 31-44). -/
structure RawAgent where
  board : RawBoard
  agent_symbol : Char
  opponent_symbol : Char
  accuracy : ℚ

/-- `__init__` (source lines 31-44): store `dict(board)`, the agent's
symbol, the derived opponent symbol and the accuracy.  No validation of
the board is performed: construction is a total function that succeeds on
every argument, malformed or not. -/
def initTicTacToeAgent (board : RawBoard) (agent_symbol : Char) (accuracy : ℚ) :
    RawAgent :=
  { board := dictOf board
    agent_symbol := agent_symbol
    opponent_symbol := if agent_symbol = 'X' then 'O' else 'X'
    accuracy := accuracy }

/-- `VICTORY_CONDITIONS` with the keys as written in the source. -/
def RAW_VICTORY_CONDITIONS : List (Char × Char × Char) :=
  [('1', '2', '3'), ('1', '4', '7'),
   ('1', '5', '9'), ('2', '5', '8'),
   ('3', '5', '7'), ('3', '6', '9'),
   ('4', '5', '6'), ('7', '8', '9')]

/-- `__check_victory` over a raw board (source lines 189-201): each
`board[...]` access on a missing key raises `KeyError`. -/
def rawCheckVictory (board : RawBoard) :
    List (Char × Char × Char) → Except PyErr (Option Char × ℚ)
  | [] => .ok (none, 0)
  | (a, b, c) :: rest =>
      match rawLookup board a, rawLookup board b, rawLookup board c with
      | some va, some vb, some vc =>
          if va = vb ∧ vb = vc ∧ vc ≠ ' ' then .ok (some va, 10)
          else rawCheckVictory board rest
      | _, _, _ => .error .keyError

/-- The malformed board of claim C7's failing input: key `'5'` missing,
every other key blank. -/
def malformedBoard : RawBoard :=
  [('1', ' '), ('2', ' '), ('3', ' '), ('4', ' '),
   ('6', ' '), ('7', ' '), ('8', ' '), ('9', ' ')]

/-- C7 (evidence for the code bug).  `__init__` accepts the malformed
board — `initTicTacToeAgent` returns an agent whose stored board is just
`dict(board)`, with key `'5'` still missing and no validation failure —
and the malformation only surfaces later, when `__check_victory` first
indexes `board['5']` during a search and raises `KeyError`. -/
theorem init_accepts_malformed_board :
    (initTicTacToeAgent malformedBoard 'X' 1).board = dictOf malformedBoard ∧
    rawLookup (initTicTacToeAgent malformedBoard 'X' 1).board '5' = none ∧
    rawCheckVictory (initTicTacToeAgent malformedBoard 'X' 1).board
      RAW_VICTORY_CONDITIONS = .error PyErr.keyError :=
  ⟨rfl, rfl, rfl⟩

end TicTacToeSpec
